import Mathlib

/-
Verification of the interval-set algebra in BITS/utils.py: the length
computation (interval_len) and set subtraction with a minimum-length filter
(subtract_interval).  The Python code operates on pyinterval objects, which
are finite unions of closed intervals kept as sorted disjoint components;
the union operator coalesces components that intersect as closed real
intervals, and the intersection operator is the standard merge scan.  We
embed integer-endpoint interval sets as sorted lists of closed ranges.
-/

namespace BITS

/-- A closed integer range, written as the pair (start, end). -/
abbrev Range : Type := ℤ × ℤ

/-- A pyinterval value: a list of closed-range components, kept sorted and
disjoint by the union operation. -/
abbrev IntervalSet : Type := List Range

/-- Union of a component list with one more range, as pyinterval performs it:
the new range is placed in order and merged with every existing component
that intersects it as a closed real interval (overlapping or sharing an
endpoint); integer-adjacent components such as [1,2] and [3,4] are NOT
merged, because as real intervals they are disjoint. -/
def insertRange : IntervalSet → Range → IntervalSet
  | [], r => [r]
  | c :: rest, r =>
    if r.2 < c.1 then r :: c :: rest
    else if c.2 < r.1 then c :: insertRange rest r
    else insertRange rest (min c.1 r.1, max c.2 r.2)

/-- Intersection of two component lists (pyinterval operator for two
interval objects): a merge scan over the two sorted sequences, emitting the
overlap of the current pair when it is nonempty and advancing whichever
component ends first.  Structured with explicit fuel so that the function
is structurally recursive; interSet below supplies sufficient fuel. -/
def interF : ℕ → IntervalSet → IntervalSet → IntervalSet
  | 0, _, _ => []
  | _, [], _ => []
  | _ + 1, _ :: _, [] => []
  | fuel + 1, a :: ar, b :: br =>
    if max a.1 b.1 ≤ min a.2 b.2 then
      (max a.1 b.1, min a.2 b.2) ::
        (if a.2 ≤ b.2 then interF fuel ar (b :: br) else interF fuel (a :: ar) br)
    else if a.2 ≤ b.2 then interF fuel ar (b :: br) else interF fuel (a :: ar) br

/-- Intersection of two interval objects. -/
def interSet (a b : IntervalSet) : IntervalSet := interF (a.length + b.length) a b

/-- interval_len from BITS/utils.py: iterate over the components and sum
the quantity end minus start plus one. -/
def interval_len (intvls : IntervalSet) : ℤ :=
  intvls.foldl (fun ret c => ret + (c.2 - c.1 + 1)) 0

/-- The mutable state of the while loop in subtract_interval: the result
accumulated so far, the two scan indices, the re-load flag, and the working
A-range variable a_intvl. -/
structure LoopState where
  ret : IntervalSet
  a_index : ℕ
  i_index : ℕ
  flag_load_new_interval : Bool
  a_intvl : Range

/-- The working A-range used by one loop iteration: the component of A at
a_index when flag_load_new_interval is set, otherwise the stored a_intvl
(the Python code only assigns a_intvl from a_interval when the flag is set;
the else branch of that test is a no-op). -/
def loadIntvl (a : IntervalSet) (s : LoopState) : Range :=
  if s.flag_load_new_interval then a.getD s.a_index (0, 0) else s.a_intvl

/-- The branching body of one iteration of the while loop of
subtract_interval, given the working A-range c and the current intersection
component iv.  Mirrors the Python branch structure literally, including the
start_contained and end_contained tests written with min and max. -/
def loopBranch (s : LoopState) (c iv : Range) : LoopState :=
  if c.2 < iv.1 then
    ⟨insertRange s.ret c, s.a_index + 1, s.i_index, s.flag_load_new_interval, c⟩
  else if iv.2 < c.1 then
    ⟨s.ret, s.a_index, s.i_index + 1, s.flag_load_new_interval, c⟩
  else if min c.1 iv.1 = iv.1 then
    if max c.2 iv.2 = iv.2 then
      ⟨s.ret, s.a_index + 1, s.i_index + 1, s.flag_load_new_interval, c⟩
    else
      ⟨s.ret, s.a_index, s.i_index + 1, false, (iv.2 + 1, c.2)⟩
  else
    if max c.2 iv.2 = iv.2 then
      ⟨insertRange s.ret (c.1, iv.1 - 1), s.a_index + 1, s.i_index, s.flag_load_new_interval, c⟩
    else
      ⟨insertRange s.ret (c.1, iv.1 - 1), s.a_index, s.i_index + 1, false, (iv.2 + 1, c.2)⟩

/-- One iteration of the while loop. -/
def loopIter (a I : IntervalSet) (s : LoopState) : LoopState :=
  loopBranch s (loadIntvl a s) (I.getD s.i_index (0, 0))

/-- The guard of the while loop. -/
def loopGuard (a I : IntervalSet) (s : LoopState) : Prop :=
  s.a_index < a.length ∧ s.i_index < I.length

instance (a I : IntervalSet) (s : LoopState) : Decidable (loopGuard a I s) :=
  inferInstanceAs (Decidable (_ ∧ _))

/-- The while loop of subtract_interval, with explicit fuel so that the
definition is structurally recursive.  The loop exits as soon as the guard
fails; subtract_raw supplies fuel equal to the length bound, which is
sufficient because every iteration strictly increases a_index + i_index. -/
def subLoopFuel : ℕ → IntervalSet → IntervalSet → LoopState → LoopState
  | 0, _, _, s => s
  | fuel + 1, a, I, s =>
    if loopGuard a I s then subLoopFuel fuel a I (loopIter a I s) else s

/-- The code after the while loop: flush the stored working range when the
flag is unset (adding the tail interval if it exists), then add every
remaining component of A from a_index on. -/
def subAfterLoop (a : IntervalSet) (s : LoopState) : IntervalSet :=
  let p : IntervalSet × ℕ :=
    if s.flag_load_new_interval = false then (insertRange s.ret s.a_intvl, s.a_index + 1)
    else (s.ret, s.a_index)
  (a.drop p.2).foldl insertRange p.1

/-- subtract_interval before its final length filter: the intersection is
computed, the two-pointer scan is run from the initial state, and the
post-loop flush and copy are applied. -/
def subtract_raw (a_interval b_interval : IntervalSet) : IntervalSet :=
  subAfterLoop a_interval
    (subLoopFuel (a_interval.length + (interSet a_interval b_interval).length)
      a_interval (interSet a_interval b_interval) ⟨[], 0, 0, true, (0, 0)⟩)

/-- The final loop of subtract_interval: rebuild the result from the
components whose length is at least the threshold. -/
def filterStep (ret : IntervalSet) (length_threshold : ℤ) : IntervalSet :=
  ret.foldl
    (fun acc c => if length_threshold ≤ interval_len [c] then insertRange acc c else acc) []

/-- subtract_interval from BITS/utils.py. -/
def subtract_interval (a_interval b_interval : IntervalSet) (length_threshold : ℤ) :
    IntervalSet :=
  filterStep (subtract_raw a_interval b_interval) length_threshold

/-- Integer point membership in an interval set. -/
def containsPoint (x : ℤ) (s : IntervalSet) : Bool :=
  s.any fun c => decide (c.1 ≤ x) && decide (x ≤ c.2)

/-- Every component is a well-formed closed range. -/
def ValidL (s : IntervalSet) : Prop := ∀ c ∈ s, c.1 ≤ c.2

/-- The components are sorted and disjoint as closed real intervals: each
component ends strictly before the next one starts. -/
def Disj (s : IntervalSet) : Prop := s.Pairwise fun c c' => c.2 < c'.1

/-- The interval-set invariant of the specification: valid components,
sorted ascending, and no two components overlap or touch as integer
ranges (for consecutive components the next start exceeds the previous
end plus one). -/
def Normalized (s : IntervalSet) : Prop :=
  ValidL s ∧ s.Pairwise fun c c' => c.2 + 1 < c'.1

instance (s : IntervalSet) : Decidable (ValidL s) :=
  inferInstanceAs (Decidable (∀ c ∈ s, _ ≤ _))

instance (s : IntervalSet) : Decidable (Disj s) := List.instDecidablePairwise s

instance (s : IntervalSet) : Decidable (Normalized s) :=
  inferInstanceAs (Decidable (_ ∧ _))

/-- Provenance of a range handled by the subtraction scan with respect to
the operand a and the intersection list I: the range is valid, lies inside
one component of a, its start is a component start of a or one past a
component end of I, and its end is a component end of a or one before a
component start of I. -/
def GoodRange (a I : IntervalSet) (r : Range) : Prop :=
  r.1 ≤ r.2 ∧ (∃ x ∈ a, x.1 ≤ r.1 ∧ r.2 ≤ x.2) ∧
    ((∃ x ∈ a, r.1 = x.1) ∨ ∃ i ∈ I, r.1 = i.2 + 1) ∧
    ((∃ x ∈ a, r.2 = x.2) ∨ ∃ i ∈ I, r.2 = i.1 - 1)

/-- Invariant carried through the scan loop: every accumulated component is
good, the accumulator is disjoint, and whenever the flag is unset the
stored working range is good. -/
def GoodState (a I : IntervalSet) (s : LoopState) : Prop :=
  (∀ c ∈ s.ret, GoodRange a I c) ∧ Disj s.ret ∧
    (s.flag_load_new_interval = false → GoodRange a I s.a_intvl)

/-- The two error kinds named by the specification. -/
inductive SpecError where
  | InvalidRange
  | InvalidArgument
deriving DecidableEq

/-- Comparison of ranges by start coordinate, used to sort raw input. -/
def leStart (x y : Range) : Prop := x.1 ≤ y.1

instance : DecidableRel leStart := fun x y => inferInstanceAs (Decidable (x.1 ≤ y.1))

instance : IsTotal Range leStart := ⟨fun x y => le_total x.1 y.1⟩

instance : IsTrans Range leStart := ⟨fun _ _ _ h1 h2 => le_trans h1 h2⟩

/-- Modelled from the spec: the left-to-right merge scan of section 4.1.
The accumulator range is merged with the next input range whenever that
range starts at or before the accumulator end plus one (overlap or
adjacency), extending the accumulator end; otherwise the accumulator is
emitted and the scan restarts from the next range. -/
def mergeAccum (acc : Range) : List Range → IntervalSet
  | [] => [acc]
  | r :: rest =>
    if r.1 ≤ acc.2 + 1 then mergeAccum (acc.1, max acc.2 r.2) rest
    else acc :: mergeAccum r rest

/-- Modelled from the spec: normalization of a start-sorted range list. -/
def mergeScan : List Range → IntervalSet
  | [] => []
  | r :: rest => mergeAccum r rest

/-- Modelled from the spec: the repository under src has no IntervalSet
constructor of its own (construction is delegated to the external
pyinterval library), so build_interval_set of section 6 is modelled from
the specification text: a raw range with start greater than end fails with
InvalidRange at construction time; otherwise the ranges are sorted by
start and merged into a normalized interval set by the section 4.1
scan. -/
def build_interval_set (ranges : List Range) : Except SpecError IntervalSet :=
  if ranges.all fun r => decide (r.1 ≤ r.2) then
    Except.ok (mergeScan (List.insertionSort leStart ranges))
  else Except.error SpecError.InvalidRange

section InsertRange

variable {acc : IntervalSet} {r : Range}

theorem insertRange_start_bound {L : ℤ} (hacc : ∀ c ∈ acc, L < c.1) (hr : L < r.1) :
    ∀ c ∈ insertRange acc r, L < c.1 := by
  induction acc generalizing r with
  | nil => simpa [insertRange] using hr
  | cons c rest ih =>
    intro c' hc'
    rw [insertRange] at hc'
    split_ifs at hc' with h1 h2
    · simp only [List.mem_cons] at hc'
      rcases hc' with h | h | h
      · simpa [h] using hr
      · exact h ▸ hacc c (by simp)
      · exact hacc c' (by simp [h])
    · simp only [List.mem_cons] at hc'
      rcases hc' with h | h
      · exact h ▸ hacc c (by simp)
      · exact ih (fun d hd => hacc d (by simp [hd])) hr c' h
    · refine ih (fun d hd => hacc d (by simp [hd])) ?_ c' hc'
      have := hacc c (by simp)
      simp only [lt_min_iff]
      exact ⟨this, hr⟩

theorem insertRange_valid (hacc : ValidL acc) (hr : r.1 ≤ r.2) :
    ValidL (insertRange acc r) := by
  induction acc generalizing r with
  | nil => simpa [insertRange, ValidL] using hr
  | cons c rest ih =>
    intro c' hc'
    rw [insertRange] at hc'
    split_ifs at hc' with h1 h2
    · simp only [List.mem_cons] at hc'
      rcases hc' with h | h | h
      · exact h ▸ hr
      · exact h ▸ hacc c (by simp)
      · exact hacc c' (by simp [h])
    · simp only [List.mem_cons] at hc'
      rcases hc' with h | h
      · exact h ▸ hacc c (by simp)
      · exact ih (fun d hd => hacc d (by simp [hd])) hr c' h
    · refine ih (fun d hd => hacc d (by simp [hd])) ?_ c' hc'
      have hc := hacc c (by simp)
      simp only [min_le_iff, le_max_iff]
      omega

theorem insertRange_disj (hval : ValidL acc) (hacc : Disj acc) (hr : r.1 ≤ r.2) :
    Disj (insertRange acc r) := by
  induction acc generalizing r with
  | nil => simp [insertRange, Disj]
  | cons c rest ih =>
    have hcv : c.1 ≤ c.2 := hval c (by simp)
    have hrest_val : ValidL rest := fun d hd => hval d (by simp [hd])
    rw [Disj, List.pairwise_cons] at hacc
    rw [insertRange]
    split_ifs with h1 h2
    · refine List.Pairwise.cons ?_ (List.Pairwise.cons hacc.1 hacc.2)
      intro c' hc'
      simp only [List.mem_cons] at hc'
      rcases hc' with h | h
      · exact h ▸ h1
      · have := hacc.1 c' h
        omega
    · refine List.Pairwise.cons ?_ (ih hrest_val hacc.2 hr)
      exact insertRange_start_bound hacc.1 h2
    · refine ih hrest_val hacc.2 ?_
      simp only [min_le_iff, le_max_iff]
      omega

theorem insertRange_pred {G : Range → Prop}
    (hmerge : ∀ u v : Range, G u → G v → v.1 ≤ u.2 → u.1 ≤ v.2 →
      G (min v.1 u.1, max v.2 u.2))
    (hacc : ∀ c ∈ acc, G c) (hr : G r) : ∀ c ∈ insertRange acc r, G c := by
  induction acc generalizing r with
  | nil => simpa [insertRange] using hr
  | cons c rest ih =>
    intro c' hc'
    rw [insertRange] at hc'
    split_ifs at hc' with h1 h2
    · simp only [List.mem_cons] at hc'
      rcases hc' with h | h | h
      · exact h ▸ hr
      · exact h ▸ hacc c (by simp)
      · exact hacc c' (by simp [h])
    · simp only [List.mem_cons] at hc'
      rcases hc' with h | h
      · exact h ▸ hacc c (by simp)
      · exact ih (fun d hd => hacc d (by simp [hd])) hr c' h
    · exact ih (fun d hd => hacc d (by simp [hd]))
        (hmerge r c hr (hacc c (by simp)) (by omega) (by omega)) c' hc'

theorem insertRange_append (hval : ValidL acc) (hr : r.1 ≤ r.2)
    (hbefore : ∀ c ∈ acc, c.2 < r.1) :
    insertRange acc r = acc ++ [r] := by
  induction acc with
  | nil => simp [insertRange]
  | cons c rest ih =>
    have hc2 : c.2 < r.1 := hbefore c (by simp)
    have hcv : c.1 ≤ c.2 := hval c (by simp)
    rw [insertRange, if_neg (by omega), if_pos hc2,
      ih (fun d hd => hval d (by simp [hd])) (fun d hd => hbefore d (by simp [hd]))]
    simp

end InsertRange

/-- Two members of a pairwise-related list are equal or related in one of
the two orders. -/
theorem pairwise_mem_cases {α : Type} {R : α → α → Prop} {l : List α}
    (hl : l.Pairwise R) {x y : α} (hx : x ∈ l) (hy : y ∈ l) :
    x = y ∨ R x y ∨ R y x := by
  induction l with
  | nil => cases hx
  | cons c rest ih =>
    rw [List.pairwise_cons] at hl
    simp only [List.mem_cons] at hx hy
    rcases hx with hx | hx
    · rcases hy with hy | hy
      · exact Or.inl (hx.trans hy.symm)
      · exact Or.inr (Or.inl (hx ▸ hl.1 y hy))
    · rcases hy with hy | hy
      · exact Or.inr (Or.inr (hy ▸ hl.1 x hx))
      · exact ih hl.2 hx hy

/-- In a normalized list, a point lies in at most one component. -/
theorem normalized_point_unique {a : IntervalSet} (ha : Normalized a) {x y : Range}
    (hx : x ∈ a) (hy : y ∈ a) {p : ℤ} (hpx : x.1 ≤ p ∧ p ≤ x.2)
    (hpy : y.1 ≤ p ∧ p ≤ y.2) : x = y := by
  rcases pairwise_mem_cases ha.2 hx hy with h | h | h
  · exact h
  · omega
  · omega

/-- GoodRange is preserved by the merge performed inside insertRange: two
good ranges that intersect as closed intervals lie in the same component of
a, so their merge is again good. -/
theorem goodRange_merge {a I : IntervalSet} (ha : Normalized a) :
    ∀ u v : Range, GoodRange a I u → GoodRange a I v → v.1 ≤ u.2 → u.1 ≤ v.2 →
      GoodRange a I (min v.1 u.1, max v.2 u.2) := by
  rintro u v ⟨huv, ⟨x, hx, hx1, hx2⟩, hus, hue⟩ ⟨hvv, ⟨y, hy, hy1, hy2⟩, hvs, hve⟩ h1 h2
  have hxy : x = y := by
    refine normalized_point_unique ha hx hy (p := max u.1 v.1) ?_ ?_ <;>
      constructor <;> simp only [le_max_iff, max_le_iff] <;> omega
  subst hxy
  refine ⟨by simp only [min_le_iff, le_max_iff]; omega,
    ⟨x, hx, by simp only [le_min_iff, max_le_iff]; omega⟩, ?_, ?_⟩
  · rcases min_choice v.1 u.1 with h | h <;> rw [h]
    · exact hvs
    · exact hus
  · rcases max_choice v.2 u.2 with h | h <;> rw [h]
    · exact hve
    · exact hue

/-- The central geometric fact behind the disjointness invariant: two good
ranges are never integer-adjacent, because every inserted range starts at a
component start of a or just after an intersection component, ends at a
component end of a or just before an intersection component, and stays
inside a single component of a; with a and the intersection both
normalized, none of the endpoint combinations can differ by exactly one. -/
theorem goodRange_not_adjacent {a I : IntervalSet} (ha : Normalized a)
    (hI : Normalized I) {u v : Range} (hu : GoodRange a I u) (hv : GoodRange a I v) :
    v.1 ≠ u.2 + 1 := by
  rcases hu with ⟨huv, ⟨x, hx, hx1, hx2⟩, _, hue⟩
  rcases hv with ⟨hvv, ⟨y, hy, hy1, hy2⟩, hvs, _⟩
  intro hadj
  have hxv : x.1 ≤ x.2 := ha.1 x hx
  have hyv : y.1 ≤ y.2 := ha.1 y hy
  rcases pairwise_mem_cases ha.2 hx hy with hxy | hxy | hxy
  · -- u and v live in the same component x of a
    subst hxy
    rcases hvs with ⟨z, hz, hzs⟩ | ⟨i, hi, his⟩
    · -- v starts at a component start of a; that component must be x itself
      have hzx : z = x := by
        refine normalized_point_unique ha hz hx (p := v.1) ?_ ?_
        · exact ⟨le_of_eq hzs.symm, by have := ha.1 z hz; omega⟩
        · omega
      subst hzx
      omega
    · -- v starts just after intersection component i; u ends at a
      -- component end of a or just before an intersection component
      rcases hue with ⟨z, hz, hze⟩ | ⟨j, hj, hje⟩
      · have hzx : z = x := by
          refine normalized_point_unique ha hz hx (p := u.2) ?_ ?_
          · exact ⟨by have := ha.1 z hz; omega, le_of_eq hze⟩
          · omega
        subst hzx
        omega
      · -- adjacency forces two intersection components at distance one
        have hiv : i.1 ≤ i.2 := hI.1 i hi
        have hjv : j.1 ≤ j.2 := hI.1 j hj
        rcases pairwise_mem_cases hI.2 hi hj with hij | hij | hij
        · subst hij; omega
        · omega
        · omega
  · omega
  · omega

/-- A tail of a normalized list is normalized. -/
theorem normalized_tail {c : Range} {rest : IntervalSet} (h : Normalized (c :: rest)) :
    Normalized rest :=
  ⟨fun d hd => h.1 d (by simp [hd]), (List.pairwise_cons.mp h.2).2⟩

/-- Every component produced by the intersection scan is the overlap of one
component of each operand. -/
theorem interF_pairs (fuel : ℕ) : ∀ (a b : IntervalSet), ∀ c ∈ interF fuel a b,
    ∃ x ∈ a, ∃ y ∈ b, c.1 = max x.1 y.1 ∧ c.2 = min x.2 y.2 := by
  induction fuel with
  | zero => intro a b c hc; simp [interF] at hc
  | succ n ih =>
    intro a b c hc
    match a, b with
    | [], _ => simp [interF] at hc
    | _ :: _, [] => simp [interF] at hc
    | a0 :: ar, b0 :: br =>
      rw [interF] at hc
      have lift :
          (∃ x ∈ ar, ∃ y ∈ b0 :: br, c.1 = max x.1 y.1 ∧ c.2 = min x.2 y.2) ∨
          (∃ x ∈ a0 :: ar, ∃ y ∈ br, c.1 = max x.1 y.1 ∧ c.2 = min x.2 y.2) →
          ∃ x ∈ a0 :: ar, ∃ y ∈ b0 :: br, c.1 = max x.1 y.1 ∧ c.2 = min x.2 y.2 := by
        rintro (⟨x, hx, y, hy, h⟩ | ⟨x, hx, y, hy, h⟩)
        · exact ⟨x, by simp [hx], y, hy, h⟩
        · exact ⟨x, hx, y, by simp [hy], h⟩
      split_ifs at hc with h1 h2 h3
      · rcases List.mem_cons.mp hc with h | h
        · exact ⟨a0, by simp, b0, by simp, by rw [h], by rw [h]⟩
        · exact lift (Or.inl (ih ar (b0 :: br) c h))
      · rcases List.mem_cons.mp hc with h | h
        · exact ⟨a0, by simp, b0, by simp, by rw [h], by rw [h]⟩
        · exact lift (Or.inr (ih (a0 :: ar) br c h))
      · exact lift (Or.inl (ih ar (b0 :: br) c hc))
      · exact lift (Or.inr (ih (a0 :: ar) br c hc))

/-- The intersection scan yields a normalized interval set: its components
are valid, sorted, and pairwise separated by at least one integer. -/
theorem interF_norm (fuel : ℕ) : ∀ (a b : IntervalSet), Normalized a → Normalized b →
    Normalized (interF fuel a b) := by
  induction fuel with
  | zero => intro a b _ _; simp [interF, Normalized, ValidL, Disj]
  | succ n ih =>
    intro a b ha hb
    match a, b with
    | [], _ => simp [interF, Normalized, ValidL]
    | _ :: _, [] => simp [interF, Normalized, ValidL]
    | a0 :: ar, b0 :: br =>
      rw [interF]
      have har : Normalized ar := normalized_tail ha
      have hbr : Normalized br := normalized_tail hb
      have hgap_a : ∀ x ∈ ar, a0.2 + 1 < x.1 := fun x hx =>
        (List.pairwise_cons.mp ha.2).1 x hx
      have hgap_b : ∀ y ∈ br, b0.2 + 1 < y.1 := fun y hy =>
        (List.pairwise_cons.mp hb.2).1 y hy
      split_ifs with h1 h2 h3
      · -- emit, then advance a
        have hrest := ih ar (b0 :: br) har hb
        refine ⟨?_, ?_⟩
        · intro c hc
          rcases List.mem_cons.mp hc with h | h
          · simp only [h]; exact h1
          · exact hrest.1 c h
        · refine List.Pairwise.cons ?_ hrest.2
          intro c hc
          obtain ⟨x, hx, y, hy, hc1, _⟩ := interF_pairs n ar (b0 :: br) c hc
          have := hgap_a x hx
          simp only [hc1]
          simp only [lt_max_iff]
          left
          omega
      · -- emit, then advance b
        have hrest := ih (a0 :: ar) br ha hbr
        refine ⟨?_, ?_⟩
        · intro c hc
          rcases List.mem_cons.mp hc with h | h
          · simp only [h]; exact h1
          · exact hrest.1 c h
        · refine List.Pairwise.cons ?_ hrest.2
          intro c hc
          obtain ⟨x, hx, y, hy, hc1, _⟩ := interF_pairs n (a0 :: ar) br c hc
          have := hgap_b y hy
          simp only [hc1]
          simp only [lt_max_iff]
          right
          omega
      · exact ih ar (b0 :: br) har hb
      · exact ih (a0 :: ar) br ha hbr

/-- interSet preserves the normalization invariant. -/
theorem interSet_norm {a b : IntervalSet} (ha : Normalized a) (hb : Normalized b) :
    Normalized (interSet a b) := interF_norm _ a b ha hb

/-- Folding insertRange over a list of good valid ranges preserves
goodness and real-interval disjointness of the accumulator. -/
theorem foldl_insertRange_good {a I : IntervalSet} (ha : Normalized a) :
    ∀ (l acc : IntervalSet), (∀ c ∈ acc, GoodRange a I c) → Disj acc →
      (∀ r ∈ l, GoodRange a I r) →
      (∀ c ∈ l.foldl insertRange acc, GoodRange a I c) ∧ Disj (l.foldl insertRange acc) := by
  intro l
  induction l with
  | nil => intro acc h1 h2 _; exact ⟨h1, h2⟩
  | cons r l' ih =>
    intro acc h1 h2 h3
    simp only [List.foldl_cons]
    have hr : GoodRange a I r := h3 r (by simp)
    refine ih (insertRange acc r) ?_ ?_ (fun d hd => h3 d (by simp [hd]))
    · exact insertRange_pred (goodRange_merge ha) h1 hr
    · exact insertRange_disj (fun d hd => (h1 d hd).1) h2 hr.1

/-- interval_len of a single component. -/
theorem interval_len_single (c : Range) : interval_len [c] = c.2 - c.1 + 1 := by
  simp [interval_len]

/-- interval_len computes the sum of the component lengths. -/
theorem interval_len_eq_sum : ∀ s : IntervalSet,
    interval_len s = (s.map fun c => c.2 - c.1 + 1).sum := by
  have aux : ∀ (s : IntervalSet) (x : ℤ),
      s.foldl (fun ret c => ret + (c.2 - c.1 + 1)) x = x + (s.map fun c => c.2 - c.1 + 1).sum := by
    intro s
    induction s with
    | nil => intro x; simp
    | cons c rest ih =>
      intro x
      simp only [List.foldl_cons, List.map_cons, List.sum_cons, ih]
      ring
  intro s
  simpa using aux s 0

/-- Each branch of the loop body only inserts good ranges and stores a good
working range, provided the working range is good and the current
intersection component really is a component of I. -/
theorem loopBranch_good {a I : IntervalSet} (ha : Normalized a) {s : LoopState} {c iv : Range}
    (hc : GoodRange a I c) (hiv : iv ∈ I)
    (hret : ∀ d ∈ s.ret, GoodRange a I d) (hdisj : Disj s.ret) :
    (∀ d ∈ (loopBranch s c iv).ret, GoodRange a I d) ∧ Disj (loopBranch s c iv).ret ∧
      GoodRange a I (loopBranch s c iv).a_intvl := by
  obtain ⟨hcv, ⟨x, hxm, hx1, hx2⟩, hcs, hce⟩ := hc
  have hretv : ValidL s.ret := fun d hd => (hret d hd).1
  have hc' : GoodRange a I c := ⟨hcv, ⟨x, hxm, hx1, hx2⟩, hcs, hce⟩
  unfold loopBranch
  split_ifs with h1 h2 h3 h4 h5 <;> dsimp only
  · exact ⟨insertRange_pred (goodRange_merge ha) hret hc',
      insertRange_disj hretv hdisj hcv, hc'⟩
  · exact ⟨hret, hdisj, hc'⟩
  · exact ⟨hret, hdisj, hc'⟩
  · -- the tail interval (iv.2 + 1, c.2)
    exact ⟨hret, hdisj,
      ⟨by dsimp only; omega, ⟨x, hxm, by dsimp only; omega⟩, Or.inr ⟨iv, hiv, rfl⟩, hce⟩⟩
  · -- the surviving head (c.1, iv.1 - 1)
    have hgood : GoodRange a I (c.1, iv.1 - 1) :=
      ⟨by dsimp only; omega, ⟨x, hxm, by dsimp only; omega⟩, hcs, Or.inr ⟨iv, hiv, rfl⟩⟩
    exact ⟨insertRange_pred (goodRange_merge ha) hret hgood,
      insertRange_disj hretv hdisj hgood.1, hc'⟩
  · have hgood : GoodRange a I (c.1, iv.1 - 1) :=
      ⟨by dsimp only; omega, ⟨x, hxm, by dsimp only; omega⟩, hcs, Or.inr ⟨iv, hiv, rfl⟩⟩
    exact ⟨insertRange_pred (goodRange_merge ha) hret hgood,
      insertRange_disj hretv hdisj hgood.1,
      ⟨by dsimp only; omega, ⟨x, hxm, by dsimp only; omega⟩, Or.inr ⟨iv, hiv, rfl⟩, hce⟩⟩

/-- An in-bounds getD is a member of the list. -/
theorem getD_mem {l : List Range} {n : ℕ} (h : n < l.length) : l.getD n (0, 0) ∈ l := by
  rw [List.getD_eq_getElem l (0, 0) h]
  exact List.getElem_mem h

/-- A component of a normalized list is itself a good range. -/
theorem goodRange_of_mem {a I : IntervalSet} (ha : Normalized a) {x : Range} (hx : x ∈ a) :
    GoodRange a I x :=
  ⟨ha.1 x hx, ⟨x, hx, le_refl _, le_refl _⟩, Or.inl ⟨x, hx, rfl⟩, Or.inl ⟨x, hx, rfl⟩⟩

/-- One loop iteration preserves the scan invariant while the guard holds. -/
theorem loopIter_good {a I : IntervalSet} (ha : Normalized a) {s : LoopState}
    (hg : loopGuard a I s) (hs : GoodState a I s) : GoodState a I (loopIter a I s) := by
  have hc : GoodRange a I (loadIntvl a s) := by
    rw [loadIntvl]
    split_ifs with hf
    · exact goodRange_of_mem ha (getD_mem hg.1)
    · exact hs.2.2 (by simpa using hf)
  have hiv : I.getD s.i_index (0, 0) ∈ I := getD_mem hg.2
  have h := loopBranch_good ha hc hiv hs.1 hs.2.1
  exact ⟨h.1, h.2.1, fun _ => h.2.2⟩

/-- The whole scan preserves the invariant. -/
theorem subLoopFuel_good {a I : IntervalSet} (ha : Normalized a) :
    ∀ (fuel : ℕ) (s : LoopState), GoodState a I s → GoodState a I (subLoopFuel fuel a I s) := by
  intro fuel
  induction fuel with
  | zero => intro s hs; exact hs
  | succ n ih =>
    intro s hs
    rw [subLoopFuel]
    split_ifs with hg
    · exact ih _ (loopIter_good ha hg hs)
    · exact hs

/-- The loop body never sets the flag back to true. -/
theorem loopBranch_flag_false {s : LoopState} {c iv : Range}
    (h : s.flag_load_new_interval = false) :
    (loopBranch s c iv).flag_load_new_interval = false := by
  unfold loopBranch
  split_ifs <;> simp [h]

/-- Once unset, the flag stays unset for the remainder of the scan. -/
theorem subLoopFuel_flag_false {a I : IntervalSet} :
    ∀ (fuel : ℕ) (s : LoopState), s.flag_load_new_interval = false →
      (subLoopFuel fuel a I s).flag_load_new_interval = false := by
  intro fuel
  induction fuel with
  | zero => intro s hs; exact hs
  | succ n ih =>
    intro s hs
    rw [subLoopFuel]
    split_ifs with hg
    · exact ih _ (loopBranch_flag_false hs)
    · exact hs

/-- Every branch of the loop body advances a_index or i_index by one (or
both), and never moves either backwards. -/
theorem loopBranch_index (s : LoopState) (c iv : Range) :
    s.a_index ≤ (loopBranch s c iv).a_index ∧
      (loopBranch s c iv).a_index ≤ s.a_index + 1 ∧
      s.i_index ≤ (loopBranch s c iv).i_index ∧
      (loopBranch s c iv).i_index ≤ s.i_index + 1 ∧
      s.a_index + s.i_index + 1 ≤ (loopBranch s c iv).a_index + (loopBranch s c iv).i_index := by
  unfold loopBranch
  split_ifs <;> simp <;> omega

/-- When the guard already fails, any amount of fuel returns the state. -/
theorem subLoopFuel_not_guard {a I : IntervalSet} {s : LoopState} (h : ¬ loopGuard a I s) :
    ∀ fuel : ℕ, subLoopFuel fuel a I s = s := by
  intro fuel
  cases fuel with
  | zero => rfl
  | succ n => rw [subLoopFuel, if_neg h]

/-- The number of loop iterations left is bounded by the measure. -/
theorem loopIter_measure {a I : IntervalSet} {s : LoopState} (hg : loopGuard a I s) :
    (a.length - (loopIter a I s).a_index) + (I.length - (loopIter a I s).i_index) + 1 ≤
      (a.length - s.a_index) + (I.length - s.i_index) := by
  have h := loopBranch_index s (loadIntvl a s) (I.getD s.i_index (0, 0))
  have hiter : loopIter a I s = loopBranch s (loadIntvl a s) (I.getD s.i_index (0, 0)) := rfl
  rw [hiter]
  rcases hg with ⟨hga, hgi⟩
  omega

/-- Any two sufficient amounts of fuel produce the same final state: the
scan terminates, and the result does not depend on the fuel bound. -/
theorem subLoopFuel_stable {a I : IntervalSet} :
    ∀ (f1 f2 : ℕ) (s : LoopState),
      (a.length - s.a_index) + (I.length - s.i_index) ≤ f1 →
      (a.length - s.a_index) + (I.length - s.i_index) ≤ f2 →
      subLoopFuel f1 a I s = subLoopFuel f2 a I s := by
  intro f1
  induction f1 with
  | zero =>
    intro f2 s h1 h2
    have hng : ¬ loopGuard a I s := by
      rw [loopGuard]
      omega
    rw [subLoopFuel_not_guard hng, subLoopFuel_not_guard hng]
  | succ n ih =>
    intro f2 s h1 h2
    by_cases hg : loopGuard a I s
    · have hm := loopIter_measure hg
      cases f2 with
      | zero =>
        exfalso
        rcases hg with ⟨hga, hgi⟩
        omega
      | succ m =>
        rw [subLoopFuel, if_pos hg, subLoopFuel, if_pos hg]
        exact ih m (loopIter a I s) (by omega) (by omega)
    · rw [subLoopFuel_not_guard hg, subLoopFuel_not_guard hg]

/-- With sufficient fuel the scan runs to completion: the final state fails
the while-loop guard. -/
theorem subLoopFuel_exit {a I : IntervalSet} :
    ∀ (fuel : ℕ) (s : LoopState),
      (a.length - s.a_index) + (I.length - s.i_index) ≤ fuel →
      ¬ loopGuard a I (subLoopFuel fuel a I s) := by
  intro fuel
  induction fuel with
  | zero =>
    intro s h
    rw [show subLoopFuel 0 a I s = s from rfl, loopGuard]
    omega
  | succ n ih =>
    intro s h
    by_cases hg : loopGuard a I s
    · have hm := loopIter_measure hg
      rw [subLoopFuel, if_pos hg]
      exact ih _ (by omega)
    · rw [subLoopFuel_not_guard hg]
      exact hg

/-- The flush and copy after the loop keep every component good and the
result disjoint. -/
theorem subAfterLoop_inv {a I : IntervalSet} (ha : Normalized a) {s : LoopState}
    (hs : GoodState a I s) :
    (∀ c ∈ subAfterLoop a s, GoodRange a I c) ∧ Disj (subAfterLoop a s) := by
  have hdrop : ∀ k : ℕ, ∀ r ∈ a.drop k, GoodRange a I r := fun k r hr =>
    goodRange_of_mem ha (List.drop_subset k a hr)
  rw [subAfterLoop]
  split_ifs with hf
  · have hcur : GoodRange a I s.a_intvl := hs.2.2 hf
    exact foldl_insertRange_good ha _ _
      (insertRange_pred (goodRange_merge ha) hs.1 hcur)
      (insertRange_disj (fun d hd => (hs.1 d hd).1) hs.2.1 hcur.1)
      (hdrop _)
  · exact foldl_insertRange_good ha _ _ hs.1 hs.2.1 (hdrop _)

/-- The pre-filter subtraction result: every component is good with respect
to a and the computed intersection, and the components are disjoint as real
intervals. -/
theorem subtract_raw_inv {a b : IntervalSet} (ha : Normalized a) :
    (∀ c ∈ subtract_raw a b, GoodRange a (interSet a b) c) ∧ Disj (subtract_raw a b) := by
  rw [subtract_raw]
  refine subAfterLoop_inv ha (subLoopFuel_good ha _ _ ?_)
  refine ⟨by simp, by simp [Disj], ?_⟩
  intro h
  simp at h

/-- The pre-filter subtraction result is a normalized interval set. -/
theorem subtract_raw_norm {a b : IntervalSet} (ha : Normalized a) (hb : Normalized b) :
    Normalized (subtract_raw a b) := by
  obtain ⟨hgood, hdisj⟩ := subtract_raw_inv (b := b) ha
  have hI : Normalized (interSet a b) := interSet_norm ha hb
  refine ⟨fun c hc => (hgood c hc).1, ?_⟩
  refine hdisj.imp_of_mem ?_
  intro c c' hc hc' hlt
  have hne := goodRange_not_adjacent ha hI (hgood c hc) (hgood c' hc')
  omega

/-- The filter fold keeps every accumulated component at or above the
length threshold: it only inserts components that pass the test, and a
merge only grows a component. -/
theorem filterFold_length {t : ℤ} :
    ∀ (l acc : IntervalSet), (∀ c ∈ acc, t ≤ interval_len [c]) →
      ∀ c ∈ l.foldl
        (fun acc c => if t ≤ interval_len [c] then insertRange acc c else acc) acc,
        t ≤ interval_len [c] := by
  have hmerge : ∀ u v : Range, t ≤ interval_len [u] → t ≤ interval_len [v] →
      v.1 ≤ u.2 → u.1 ≤ v.2 → t ≤ interval_len [(min v.1 u.1, max v.2 u.2)] := by
    intro u v hu hv h1 h2
    rw [interval_len_single] at *
    dsimp only
    simp only [min_le_iff, le_max_iff] at *
    omega
  intro l
  induction l with
  | nil => intro acc h c hc; exact h c hc
  | cons r l' ih =>
    intro acc h c hc
    simp only [List.foldl_cons] at hc
    by_cases hr : t ≤ interval_len [r]
    · rw [if_pos hr] at hc
      exact ih (insertRange acc r) (insertRange_pred hmerge h hr) c hc
    · rw [if_neg hr] at hc
      exact ih acc h c hc

/-- The filter fold preserves goodness and disjointness of the result. -/
theorem filterFold_inv {a I : IntervalSet} (ha : Normalized a) {t : ℤ} :
    ∀ (l acc : IntervalSet), (∀ c ∈ acc, GoodRange a I c) → Disj acc →
      (∀ r ∈ l, GoodRange a I r) →
      (∀ c ∈ l.foldl
        (fun acc c => if t ≤ interval_len [c] then insertRange acc c else acc) acc,
        GoodRange a I c) ∧
      Disj (l.foldl
        (fun acc c => if t ≤ interval_len [c] then insertRange acc c else acc) acc) := by
  intro l
  induction l with
  | nil => intro acc h1 h2 _; exact ⟨h1, h2⟩
  | cons r l' ih =>
    intro acc h1 h2 h3
    have hr : GoodRange a I r := h3 r (by simp)
    simp only [List.foldl_cons]
    by_cases hc : t ≤ interval_len [r]
    · rw [if_pos hc]
      exact ih (insertRange acc r)
        (insertRange_pred (goodRange_merge ha) h1 hr)
        (insertRange_disj (fun d hd => (h1 d hd).1) h2 hr.1)
        (fun d hd => h3 d (by simp [hd]))
    · rw [if_neg hc]
      exact ih acc h1 h2 (fun d hd => h3 d (by simp [hd]))

/-- On a valid, disjoint, sorted component list the filter fold is exactly
List.filter: each kept component is appended unchanged at the end of the
accumulator, so no merging or reordering takes place. -/
theorem filterFold_eq_filter {t : ℤ} :
    ∀ (l acc : IntervalSet), ValidL acc → Disj acc → ValidL l → Disj l →
      (∀ c ∈ acc, ∀ r ∈ l, c.2 < r.1) →
      l.foldl (fun acc c => if t ≤ interval_len [c] then insertRange acc c else acc) acc
        = acc ++ l.filter (fun c => decide (t ≤ interval_len [c])) := by
  intro l
  induction l with
  | nil => intro acc _ _ _ _ _; simp
  | cons r l' ih =>
    intro acc hav had hlv hld hcross
    have hrv : r.1 ≤ r.2 := hlv r (by simp)
    have hl'v : ValidL l' := fun d hd => hlv d (by simp [hd])
    have hl'd : Disj l' := (List.pairwise_cons.mp hld).2
    have hrl' : ∀ d ∈ l', r.2 < d.1 := (List.pairwise_cons.mp hld).1
    simp only [List.foldl_cons, List.filter_cons]
    by_cases hc : t ≤ interval_len [r]
    · rw [if_pos hc, insertRange_append hav hrv (fun d hd => hcross d hd r (by simp))]
      rw [ih (acc ++ [r]) ?_ ?_ hl'v hl'd ?_]
      · simp [hc]
      · intro d hd
        rcases List.mem_append.mp hd with h | h
        · exact hav d h
        · simp only [List.mem_singleton] at h
          exact h ▸ hrv
      · rw [Disj, List.pairwise_append]
        refine ⟨had, by simp [Disj], ?_⟩
        intro d hd e he
        simp only [List.mem_singleton] at he
        exact he ▸ hcross d hd r (by simp)
      · intro d hd e he
        rcases List.mem_append.mp hd with h | h
        · exact hcross d h e (by simp [he])
        · simp only [List.mem_singleton] at h
          exact h ▸ hrl' e he
    · rw [if_neg hc, ih acc hav had hl'v hl'd
        (fun d hd e he => hcross d hd e (by simp [he]))]
      simp [hc]

/-- filterStep on a valid disjoint list is List.filter by the length test. -/
theorem filterStep_eq_filter {ret : IntervalSet} {t : ℤ} (hv : ValidL ret) (hd : Disj ret) :
    filterStep ret t = ret.filter (fun c => decide (t ≤ interval_len [c])) := by
  rw [filterStep, filterFold_eq_filter ret [] (by intro c hc; cases hc) (by simp [Disj])
    hv hd (by intro c hc; cases hc)]
  simp

/-- Sums of component lengths shrink when the filter gets stricter. -/
theorem sum_filter_mono {p q : Range → Bool} (himp : ∀ c, q c = true → p c = true) :
    ∀ l : IntervalSet, (∀ c ∈ l, (0 : ℤ) ≤ c.2 - c.1 + 1) →
      ((l.filter q).map fun c => c.2 - c.1 + 1).sum ≤
        ((l.filter p).map fun c => c.2 - c.1 + 1).sum := by
  intro l
  induction l with
  | nil => intro _; simp
  | cons c rest ih =>
    intro hnn
    have hrest := ih fun d hd => hnn d (by simp [hd])
    have hc := hnn c (by simp)
    simp only [List.filter_cons]
    by_cases hq : q c = true
    · rw [if_pos hq, if_pos (himp c hq)]
      simp only [List.map_cons, List.sum_cons]
      omega
    · rw [if_neg hq]
      by_cases hp : p c = true
      · rw [if_pos hp]
        simp only [List.map_cons, List.sum_cons]
        omega
      · rw [if_neg hp]
        exact hrest

/-- The normalization merge scan produces a normalized interval set whose
components all start at or after the accumulator start. -/
theorem mergeAccum_norm :
    ∀ (l : List Range) (acc : Range), acc.1 ≤ acc.2 → ValidL l →
      l.Pairwise leStart → (∀ r ∈ l, acc.1 ≤ r.1) →
      Normalized (mergeAccum acc l) ∧ ∀ c ∈ mergeAccum acc l, acc.1 ≤ c.1 := by
  intro l
  induction l with
  | nil =>
    intro acc hacc _ _ _
    constructor
    · exact ⟨fun c hc => by simpa [mergeAccum] using (List.mem_singleton.mp hc) ▸ hacc,
        by simp [mergeAccum]⟩
    · intro c hc
      rw [mergeAccum, List.mem_singleton] at hc
      simp [hc]
  | cons r l' ih =>
    intro acc hacc hval hsort hall
    have hrv : r.1 ≤ r.2 := hval r (by simp)
    have hl'v : ValidL l' := fun d hd => hval d (by simp [hd])
    have hl's : l'.Pairwise leStart := (List.pairwise_cons.mp hsort).2
    have hrle : ∀ d ∈ l', r.1 ≤ d.1 := (List.pairwise_cons.mp hsort).1
    have har : acc.1 ≤ r.1 := hall r (by simp)
    rw [mergeAccum]
    split_ifs with h
    · -- merge the next range into the accumulator
      have := ih (acc.1, max acc.2 r.2) (by dsimp only; omega) hl'v hl's
        (fun d hd => hall d (by simp [hd]))
      exact this
    · -- emit the accumulator and restart from r
      obtain ⟨⟨hnv, hnp⟩, hstart⟩ := ih r hrv hl'v hl's hrle
      refine ⟨⟨?_, ?_⟩, ?_⟩
      · intro c hc
        rcases List.mem_cons.mp hc with hc | hc
        · exact hc ▸ hacc
        · exact hnv c hc
      · refine List.Pairwise.cons ?_ hnp
        intro c hc
        have := hstart c hc
        omega
      · intro c hc
        rcases List.mem_cons.mp hc with hc | hc
        · simp [hc]
        · have := hstart c hc
          omega

/-- Successful construction yields a normalized interval set. -/
theorem build_interval_set_norm {ranges : List Range} {s : IntervalSet}
    (h : build_interval_set ranges = Except.ok s) : Normalized s := by
  rw [build_interval_set] at h
  split_ifs at h with hall
  · simp only [Except.ok.injEq] at h
    subst h
    have hsorted := List.sorted_insertionSort leStart ranges
    have hvalid : ValidL (List.insertionSort leStart ranges) := by
      intro c hc
      rw [List.mem_insertionSort] at hc
      have := List.all_eq_true.mp hall c hc
      exact of_decide_eq_true this
    cases hs : List.insertionSort leStart ranges with
    | nil => simp [mergeScan, Normalized, ValidL]
    | cons r rest =>
      rw [mergeScan]
      rw [hs] at hsorted hvalid
      exact (mergeAccum_norm rest r (hvalid r (by simp))
        (fun d hd => hvalid d (by simp [hd]))
        (List.pairwise_cons.mp hsorted).2
        (List.pairwise_cons.mp hsorted).1).1

/-- Disjointness plus goodness of every component upgrades to the full
normalization invariant, by the adjacency impossibility argument. -/
theorem normalized_of_good {a I s : IntervalSet} (ha : Normalized a) (hI : Normalized I)
    (hgood : ∀ c ∈ s, GoodRange a I c) (hdisj : Disj s) : Normalized s := by
  refine ⟨fun c hc => (hgood c hc).1, ?_⟩
  refine hdisj.imp_of_mem ?_
  intro c c' hc hc' hlt
  have hne := goodRange_not_adjacent ha hI (hgood c hc) (hgood c' hc')
  omega

/-- The filtered subtraction result is normalized for every threshold. -/
theorem subtract_interval_norm {a b : IntervalSet} (ha : Normalized a) (hb : Normalized b)
    (t : ℤ) : Normalized (subtract_interval a b t) := by
  obtain ⟨hgood, hdisj⟩ := subtract_raw_inv (b := b) ha
  have h := filterFold_inv (I := interSet a b) ha (t := t) (subtract_raw a b) []
    (by intro c hc; cases hc) (by simp [Disj]) hgood
  exact normalized_of_good ha (interSet_norm ha hb) h.1 h.2

/-- C1: the claim states that for all interval sets A and B an integer x
lies in subtract(A, B, 0) exactly when x lies in A but not in B.  The code
violates this: with A = [[1,3]] and B = [[1,1],[3,3]] it returns [[2,3]],
although 3 is a point of B.  The cause is the flag handling of the scan:
after the first overlap shrinks the working range to [2,3] and clears
flag_load_new_interval, the later branch that advances a_index never sets
the flag again, so the loop keeps comparing the stale range, and the final
flush re-emits the whole stored range [2,3] even though its point 3 was
matched against B.  This contradicts the documented intent of the function
(calculate A minus B), so it is a defect of the code, not of the claim. -/
theorem subtract_not_exact_difference :
    subtract_interval [((1 : ℤ), 3)] [((1 : ℤ), 1), ((3 : ℤ), 3)] 0 = [((2 : ℤ), 3)] ∧
      containsPoint 3 (subtract_interval [((1 : ℤ), 3)] [((1 : ℤ), 1), ((3 : ℤ), 3)] 0) = true ∧
      containsPoint 3 [((1 : ℤ), 1), ((3 : ℤ), 3)] = true := by
  refine ⟨by decide, by decide, by decide⟩

/-- C2: on the concrete inputs A = [[1,5],[10,20]] and B = [[3,12]] the
subtraction with threshold 0 returns exactly [[1,2],[13,20]]. -/
theorem subtract_scenario_three :
    subtract_interval [((1 : ℤ), 5), ((10 : ℤ), 20)] [((3 : ℤ), 12)] 0 =
      [((1 : ℤ), 2), ((13 : ℤ), 20)] := by decide

/-- C3: every component of the filtered subtraction result has length at
least the threshold; with threshold 0 the filter drops nothing, so the
result equals the pre-filter value; and the two concrete scenarios with
A = [[1,100]], B = [[40,45]] give [[1,39],[46,100]] at threshold 10 and
[[46,100]] at threshold 45. -/
theorem subtract_min_length_filter (a b : IntervalSet) (t : ℤ)
    (ha : Normalized a) (hb : Normalized b) :
    (∀ c ∈ subtract_interval a b t, t ≤ c.2 - c.1 + 1) ∧
      subtract_interval a b 0 = subtract_raw a b ∧
      subtract_interval [((1 : ℤ), 100)] [((40 : ℤ), 45)] 10 =
        [((1 : ℤ), 39), ((46 : ℤ), 100)] ∧
      subtract_interval [((1 : ℤ), 100)] [((40 : ℤ), 45)] 45 = [((46 : ℤ), 100)] := by
  refine ⟨?_, ?_, by decide, by decide⟩
  · intro c hc
    have h := filterFold_length (t := t) (subtract_raw a b) []
      (by intro d hd; cases hd) c hc
    rwa [interval_len_single] at h
  · have hraw := subtract_raw_norm ha hb
    have hd : Disj (subtract_raw a b) := hraw.2.imp fun h => by omega
    rw [subtract_interval, filterStep_eq_filter hraw.1 hd, List.filter_eq_self.mpr ?_]
    intro c hc
    have hv := hraw.1 c hc
    simp only [interval_len_single, decide_eq_true_eq]
    omega

/-- C4: every operation returns an interval set satisfying the invariant
of the data model: valid components, sorted ascending, with consecutive
components separated by more than one (no overlap and no touching).  This
covers intersection, subtraction at every threshold, and the construction
operation modelled from the specification. -/
theorem operations_preserve_invariant (a b : IntervalSet) (t : ℤ) (ranges : List Range)
    (s : IntervalSet) (ha : Normalized a) (hb : Normalized b)
    (hs : build_interval_set ranges = Except.ok s) :
    Normalized (interSet a b) ∧ Normalized (subtract_interval a b t) ∧ Normalized s :=
  ⟨interSet_norm ha hb, subtract_interval_norm ha hb t, build_interval_set_norm hs⟩

/-- C5: interval_len of the empty set is 0, interval_len is the sum over
the components of end minus start plus one, and on valid components the
value is non-negative.  The embedding is a pure function, matching the
absence of side effects in the source. -/
theorem interval_len_spec :
    interval_len [] = 0 ∧
      (∀ s : IntervalSet, interval_len s = (s.map fun c => c.2 - c.1 + 1).sum) ∧
      ∀ s : IntervalSet, ValidL s → 0 ≤ interval_len s := by
  refine ⟨rfl, interval_len_eq_sum, ?_⟩
  intro s hs
  rw [interval_len_eq_sum]
  apply List.sum_nonneg
  intro x hx
  obtain ⟨c, hc, rfl⟩ := List.mem_map.mp hx
  have := hs c hc
  omega

/-- C6 counterexample: the claim states that a negative min_length fails
with an InvalidArgument error and produces no output.  The source performs
no validation of length_threshold at all: with min_length equal to minus
one the call returns the ordinary subtraction result. -/
theorem subtract_negative_threshold_counterexample :
    subtract_interval [((1 : ℤ), 10)] [((3 : ℤ), 5)] (-1) =
      [((1 : ℤ), 2), ((6 : ℤ), 10)] := by decide

/-- C6 amended: subtract accepts any integer min_length, including
negative values; a non-positive threshold filters nothing and gives the
same result as threshold 0. -/
theorem subtract_negative_threshold_no_filtering (a b : IntervalSet) (t : ℤ)
    (ht : t ≤ 0) (ha : Normalized a) (hb : Normalized b) :
    subtract_interval a b t = subtract_interval a b 0 := by
  have hraw := subtract_raw_norm ha hb
  have hd : Disj (subtract_raw a b) := hraw.2.imp fun h => by omega
  have hall : ∀ u : ℤ, u ≤ 0 → ∀ c ∈ subtract_raw a b,
      (fun c => decide (u ≤ interval_len [c])) c = true := by
    intro u hu c hc
    have hv := hraw.1 c hc
    simp only [interval_len_single, decide_eq_true_eq]
    omega
  rw [subtract_interval, subtract_interval, filterStep_eq_filter hraw.1 hd,
    filterStep_eq_filter hraw.1 hd, List.filter_eq_self.mpr (hall t ht),
    List.filter_eq_self.mpr (hall 0 le_rfl)]

/-- C7: construction from raw pairs fails with InvalidRange exactly when
some pair has start greater than end, and InvalidRange is the only error
construction can produce.  The internal operations (interSet, interval_len,
subtract_interval) are total functions returning plain interval sets, so
they can produce no error at all.  The constructor is modelled from the
specification because the repository delegates construction to the external
pyinterval library. -/
theorem build_interval_set_errors (ranges : List Range) :
    (build_interval_set ranges = Except.error SpecError.InvalidRange ↔
      ∃ r ∈ ranges, r.2 < r.1) ∧
      ∀ e, build_interval_set ranges = Except.error e → e = SpecError.InvalidRange := by
  constructor
  · constructor
    · intro hc
      rw [build_interval_set] at hc
      split_ifs at hc with h
      simp only [List.all_eq_true, decide_eq_true_eq] at h
      push_neg at h
      obtain ⟨r, hr, hlt⟩ := h
      exact ⟨r, hr, by omega⟩
    · rintro ⟨r, hr, hlt⟩
      rw [build_interval_set]
      split_ifs with h
      · have := of_decide_eq_true (List.all_eq_true.mp h r hr)
        omega
      · rfl
  · intro e he
    rw [build_interval_set] at he
    split_ifs at he with h
    injection he with h2
    exact h2.symm

/-- C8: raising the threshold can only shrink the total retained length:
for thresholds t1 at most t2, the length of the subtraction filtered at t2
is at most the length filtered at t1. -/
theorem subtract_filter_monotone (a b : IntervalSet) (t1 t2 : ℤ)
    (h0 : 0 ≤ t1) (h12 : t1 ≤ t2) (ha : Normalized a) (hb : Normalized b) :
    interval_len (subtract_interval a b t2) ≤ interval_len (subtract_interval a b t1) := by
  have hraw := subtract_raw_norm ha hb
  have hd : Disj (subtract_raw a b) := hraw.2.imp fun h => by omega
  rw [subtract_interval, subtract_interval, filterStep_eq_filter hraw.1 hd,
    filterStep_eq_filter hraw.1 hd, interval_len_eq_sum, interval_len_eq_sum]
  refine sum_filter_mono ?_ _ ?_
  · intro c hq
    simp only [decide_eq_true_eq] at hq ⊢
    omega
  · intro c hc
    have := hraw.1 c hc
    omega

/-- C9: the two-pointer scan terminates.  With fuel at least the measure
(remaining components of A plus remaining components of the intersection)
the loop result no longer depends on the fuel, the final state fails the
while-loop guard, and each iteration taken under the guard strictly
increases a_index plus i_index. -/
theorem subtract_scan_terminates (a I : IntervalSet) (s : LoopState) (fuel : ℕ)
    (h : (a.length - s.a_index) + (I.length - s.i_index) ≤ fuel) :
    subLoopFuel fuel a I s =
        subLoopFuel ((a.length - s.a_index) + (I.length - s.i_index)) a I s ∧
      ¬ loopGuard a I (subLoopFuel fuel a I s) ∧
      (loopGuard a I s →
        s.a_index + s.i_index + 1 ≤ (loopIter a I s).a_index + (loopIter a I s).i_index) := by
  refine ⟨subLoopFuel_stable fuel _ s h le_rfl, subLoopFuel_exit fuel s h, ?_⟩
  intro hg
  have hidx := loopBranch_index s (loadIntvl a s) (I.getD s.i_index (0, 0))
  have hi : loopIter a I s = loopBranch s (loadIntvl a s) (I.getD s.i_index (0, 0)) := rfl
  rw [hi]
  omega

/-- C10: the flag is never assigned true after its initialization.  Once
it is false, it remains false for the entire remaining scan, every
iteration keeps operating on the stored working range instead of loading
the component at a_index, and the flush after the loop inserts the stored
working range and advances a_index once more. -/
theorem flag_never_reset (a I : IntervalSet) (s : LoopState) (fuel : ℕ)
    (h : s.flag_load_new_interval = false) :
    (subLoopFuel fuel a I s).flag_load_new_interval = false ∧
      loadIntvl a s = s.a_intvl ∧
      subAfterLoop a s =
        (a.drop (s.a_index + 1)).foldl insertRange (insertRange s.ret s.a_intvl) := by
  refine ⟨subLoopFuel_flag_false fuel s h, by simp [loadIntvl, h], ?_⟩
  simp [subAfterLoop, h]

/-- Witness for C3 at concrete inputs. -/
theorem subtract_min_length_filter_w :
    Normalized [((1 : ℤ), 100)] ∧ Normalized [((40 : ℤ), 45)] ∧
      subtract_interval [((1 : ℤ), 100)] [((40 : ℤ), 45)] 0 =
        subtract_raw [((1 : ℤ), 100)] [((40 : ℤ), 45)] :=
  ⟨by decide, by decide,
    (subtract_min_length_filter [((1 : ℤ), 100)] [((40 : ℤ), 45)] 10
      (by decide) (by decide)).2.1⟩

/-- Witness for C4 at concrete inputs. -/
theorem operations_preserve_invariant_w :
    build_interval_set [((3 : ℤ), 4), ((1 : ℤ), 2)] = Except.ok [((1 : ℤ), 4)] ∧
      Normalized (subtract_interval [((1 : ℤ), 5), ((10 : ℤ), 20)] [((3 : ℤ), 12)] 0) :=
  ⟨rfl,
    (operations_preserve_invariant [((1 : ℤ), 5), ((10 : ℤ), 20)] [((3 : ℤ), 12)] 0
      [((3 : ℤ), 4), ((1 : ℤ), 2)] [((1 : ℤ), 4)] (by decide) (by decide) rfl).2.1⟩

/-- Witness for C5 at a concrete input. -/
theorem interval_len_spec_w :
    ValidL [((1 : ℤ), 3), ((5 : ℤ), 5)] ∧ 0 ≤ interval_len [((1 : ℤ), 3), ((5 : ℤ), 5)] :=
  ⟨by decide, interval_len_spec.2.2 [((1 : ℤ), 3), ((5 : ℤ), 5)] (by decide)⟩

/-- Witness for the amended C6 at concrete inputs. -/
theorem subtract_negative_threshold_no_filtering_w :
    subtract_interval [((1 : ℤ), 10)] [((3 : ℤ), 5)] (-1) =
      subtract_interval [((1 : ℤ), 10)] [((3 : ℤ), 5)] 0 :=
  subtract_negative_threshold_no_filtering [((1 : ℤ), 10)] [((3 : ℤ), 5)] (-1)
    (by decide) (by decide) (by decide)

/-- Witness for C7 at a concrete invalid pair. -/
theorem build_interval_set_errors_w :
    build_interval_set [((2 : ℤ), 1)] = Except.error SpecError.InvalidRange :=
  (build_interval_set_errors [((2 : ℤ), 1)]).1.mpr ⟨(2, 1), by decide, by decide⟩

/-- Witness for C8 at concrete inputs. -/
theorem subtract_filter_monotone_w :
    interval_len (subtract_interval [((1 : ℤ), 100)] [((40 : ℤ), 45)] 45) ≤
      interval_len (subtract_interval [((1 : ℤ), 100)] [((40 : ℤ), 45)] 10) :=
  subtract_filter_monotone [((1 : ℤ), 100)] [((40 : ℤ), 45)] 10 45
    (by decide) (by decide) (by decide) (by decide)

/-- Witness for C9 at concrete inputs. -/
theorem subtract_scan_terminates_w :
    ¬ loopGuard [((1 : ℤ), 5), ((10 : ℤ), 20)] [((3 : ℤ), 5)]
      (subLoopFuel 7 [((1 : ℤ), 5), ((10 : ℤ), 20)] [((3 : ℤ), 5)] ⟨[], 0, 0, true, (0, 0)⟩) :=
  (subtract_scan_terminates [((1 : ℤ), 5), ((10 : ℤ), 20)] [((3 : ℤ), 5)]
    ⟨[], 0, 0, true, (0, 0)⟩ 7 (by decide)).2.1

/-- Witness for C10 at a concrete state with the flag unset. -/
theorem flag_never_reset_w :
    (subLoopFuel 5 [((1 : ℤ), 9)] [((2 : ℤ), 3)]
        ⟨[], 0, 1, false, (4, 9)⟩).flag_load_new_interval = false :=
  (flag_never_reset [((1 : ℤ), 9)] [((2 : ℤ), 3)] ⟨[], 0, 1, false, (4, 9)⟩ 5 rfl).1

end BITS
